import Mathlib

/-! Formal model of `chapter_04/classification.py`.

A shallow embedding of the classification module: the indicator-matrix
transform, the least-squares classifier, the linear discriminant classifier
(LDA), the quadratic discriminant classifier (QDA), and the
classification-error-rate utility.

Modelling conventions:

* Numeric data is embedded as exact rationals (`ℚ`); a feature matrix with
  `n` rows and `p` columns is `Matrix (Fin n) (Fin p) ℚ`, and a label vector
  is `Fin n → L` for a linearly ordered label type `L` (labels are hashable,
  orderable values in the source; the linear order models Python's sort).
* `np.log` is embedded as an uninterpreted function parameter `lg : ℚ → ℚ`
  passed to the discriminant fits: no property studied here depends on any
  analytic property of the logarithm, only on it being a function, so the
  theorems quantify over `lg`.
* Fallible operations are embedded with `Option`: `np.linalg.inv` raises
  `LinAlgError` on an exactly singular matrix, so a fit that inverts a
  matrix returns `none` when the corresponding determinant vanishes, and a
  division whose denominator is zero (`sigma /= (n - k)` with `n = k`),
  which produces no usable model in floating point, is likewise a `none`.
* `pandas.Series.idxmax` (and `DataFrame.apply(... idxmax, axis=1)`) returns
  the first index attaining the maximum; on an empty series pandas raises,
  embedded as `none`.
-/

open Matrix Finset

/-- Model of `pandas.Series.idxmax` on a series given as a list of (label, value)
pairs: the first pair whose value attains the maximum of the series, `none`
on the empty series (where pandas raises `ValueError`). -/
def idxmaxFrom {L : Type} (x : L × ℚ) : List (L × ℚ) → L × ℚ
  | [] => x
  | z :: zs => let y := idxmaxFrom z zs; if y.2 > x.2 then y else x

def idxmax {L : Type} : List (L × ℚ) → Option (L × ℚ)
  | [] => none
  | x :: xs => some (idxmaxFrom x xs)

/-- The labelled score series built from the ordered class list `cs` and the
per-class scores `f`: column `j` of a class-indexed row of a DataFrame. -/
def seriesOf {L : Type} (cs : List L) (f : Fin cs.length → ℚ) : List (L × ℚ) :=
  (List.finRange cs.length).map (fun j => (cs.get j, f j))

/-- Model of `sorted(set(values))`: the distinct labels of `y` in ascending order. -/
def classesOf {n : ℕ} {L : Type} [LinearOrder L] (y : Fin n → L) : List L :=
  (Finset.image y Finset.univ).sort (· ≤ ·)

/-- Model of `collections.Counter(values)[c]`: how many observations carry label `c`. -/
def classCount {n : ℕ} {L : Type} [DecidableEq L] (y : Fin n → L) (c : L) : ℕ :=
  (Finset.univ.filter (fun i => y i = c)).card

/-- Model of `pd.Series(collections.Counter(values), index=classes) / values.size`:
the empirical prior of class `c`. -/
def probabilitiesOf {n : ℕ} {L : Type} [DecidableEq L] (y : Fin n → L) (c : L) : ℚ :=
  (classCount y c : ℚ) / n

/-- Model of `x2.groupby('y').apply(lambda v: v.mean())`: the per-class mean of the
feature columns, at class `c`. -/
def classMean {n p : ℕ} {L : Type} [DecidableEq L] (X : Matrix (Fin n) (Fin p) ℚ)
    (y : Fin n → L) (c : L) : Fin p → ℚ :=
  fun j => (∑ i ∈ Finset.univ.filter (fun i => y i = c), X i j) / (classCount y c : ℚ)

/-- Model of `indicator_matrix(values)`: the 0/1 matrix with one column per distinct
label in ascending order, `M i j = 1` iff observation `i` carries the `j`-th
class.  (`y[cls] = values == cls`, then `.astype(int)`.) -/
def indicator_matrix {n : ℕ} {L : Type} [LinearOrder L] (y : Fin n → L) :
    Matrix (Fin n) (Fin (classesOf y).length) ℚ :=
  Matrix.of fun i j => if y i = (classesOf y).get j then 1 else 0

/-- Model of `classification_error_rate(classifier, coords, values)`: the classifier is
any value of the duck-typed `Classification` capability, embedded as its
`classify` operation; the result is `(yhat != values).mean()`. -/
def classification_error_rate {m p : ℕ} {L : Type} [DecidableEq L]
    (classifier : Matrix (Fin m) (Fin p) ℚ → Fin m → Option L)
    (coords : Matrix (Fin m) (Fin p) ℚ) (values : Fin m → L) : ℚ :=
  ((Finset.univ.filter (fun i => classifier coords i ≠ some (values i))).card : ℚ) / m

/-- The value `np.linalg.inv` returns on an invertible matrix (on a singular
matrix the source raises; callers of this model gate on `det ≠ 0`). -/
def matInv {p : ℕ} (A : Matrix (Fin p) (Fin p) ℚ) : Matrix (Fin p) (Fin p) ℚ :=
  if A.det = 0 then 0 else A.det⁻¹ • A.adjugate

/-- The residual `xv` of observation `i`: its feature row minus its class mean. -/
def residualOf {n p : ℕ} {L : Type} [DecidableEq L] (X : Matrix (Fin n) (Fin p) ℚ)
    (y : Fin n → L) (i : Fin n) : Fin p → ℚ :=
  fun j => X i j - classMean X y (y i) j

/-- The pooled within-class covariance of LDA: the loop
`for idx, x in x2.iterrows(): sigma += np.outer(xv, xv)` followed by
`sigma /= (n - k)`. -/
def pooledSigma {n p : ℕ} {L : Type} [LinearOrder L] (X : Matrix (Fin n) (Fin p) ℚ)
    (y : Fin n → L) : Matrix (Fin p) (Fin p) ℚ :=
  ((n : ℚ) - ((classesOf y).length : ℚ))⁻¹ •
    ∑ i : Fin n, vecMulVec (residualOf X y i) (residualOf X y i)

/-- Model of `np.cov(selected.drop('y', 1) - mu, rowvar=0, ddof=1)`: the unbiased
covariance of the rows of class `c` (subtracting `mu` beforehand does not
change the covariance; `np.cov` centers at the sample mean, so the summands
are exactly the outer products of the class residuals). -/
def classCovariance {n p : ℕ} {L : Type} [DecidableEq L] (X : Matrix (Fin n) (Fin p) ℚ)
    (y : Fin n → L) (c : L) : Matrix (Fin p) (Fin p) ℚ :=
  ((classCount y c : ℚ) - 1)⁻¹ •
    ∑ i ∈ Finset.univ.filter (fun i => y i = c), vecMulVec (residualOf X y i) (residualOf X y i)

/-- Fitted state of `LeastSquaresClassifier`. -/
structure LeastSquaresClassifier (p : ℕ) (L : Type) where
  classes : List L
  betahat : Matrix (Fin p) (Fin classes.length) ℚ

/-- Model of `LeastSquaresClassifier.__init__`: record the sorted classes and solve
`betahat = (XᵀX)⁻¹ Xᵀ Y` against the indicator matrix `Y`; `np.linalg.inv`
fails when `XᵀX` is singular. -/
def LeastSquaresClassifier.fit {n p : ℕ} {L : Type} [LinearOrder L]
    (coords : Matrix (Fin n) (Fin p) ℚ) (values : Fin n → L) :
    Option (LeastSquaresClassifier p L) :=
  if (coordsᵀ * coords).det = 0 then none
  else some { classes := classesOf values
              betahat := (matInv (coordsᵀ * coords) * coordsᵀ) * indicator_matrix values }

/-- Model of `LeastSquaresClassifier.classify`: scores `yhat = samples.dot(betahat)`,
then row-wise `idxmax` over the class-labelled columns. -/
def LeastSquaresClassifier.classify {m p : ℕ} {L : Type}
    (self : LeastSquaresClassifier p L) (samples : Matrix (Fin m) (Fin p) ℚ)
    (i : Fin m) : Option L :=
  (idxmax (seriesOf self.classes (fun j => (samples * self.betahat) i j))).map Prod.fst

/-- Fitted state of `LinearDiscriminantClassifier`. -/
structure LinearDiscriminantClassifier (p : ℕ) (L : Type) where
  classes : List L
  probabilities : Fin classes.length → ℚ
  means : Matrix (Fin classes.length) (Fin p) ℚ
  sigma : Matrix (Fin p) (Fin p) ℚ
  sigma_inv : Matrix (Fin p) (Fin p) ℚ
  constants : Fin classes.length → ℚ
  discrimination_matrix : Matrix (Fin p) (Fin classes.length) ℚ

/-- Model of `LinearDiscriminantClassifier.__init__`: priors, per-class means, pooled
covariance `sigma` (divided by `n - k`), its inverse, the constants
`log(prob) - 0.5 * (means * (sigma_inv @ means.T).T).sum(1)`, and the
discrimination matrix `sigma_inv @ means.T`.  Fails when the division
`sigma /= (n - k)` has a zero denominator or `sigma` is singular. -/
def LinearDiscriminantClassifier.fit {n p : ℕ} {L : Type} [LinearOrder L] (lg : ℚ → ℚ)
    (coords : Matrix (Fin n) (Fin p) ℚ) (values : Fin n → L) :
    Option (LinearDiscriminantClassifier p L) :=
  if (n : ℚ) - ((classesOf values).length : ℚ) = 0 ∨ (pooledSigma coords values).det = 0
  then none
  else
    some { classes := classesOf values
           probabilities := fun c => probabilitiesOf values ((classesOf values).get c)
           means := Matrix.of fun c j => classMean coords values ((classesOf values).get c) j
           sigma := pooledSigma coords values
           sigma_inv := matInv (pooledSigma coords values)
           constants := fun c =>
             lg (probabilitiesOf values ((classesOf values).get c)) -
               (1/2) * ∑ j : Fin p,
                 (Matrix.of fun c j => classMean coords values ((classesOf values).get c) j) c j *
                   (matInv (pooledSigma coords values) *
                     (Matrix.of fun c j => classMean coords values ((classesOf values).get c) j)ᵀ)ᵀ
                     c j
           discrimination_matrix :=
             matInv (pooledSigma coords values) *
               (Matrix.of fun c j => classMean coords values ((classesOf values).get c) j)ᵀ }

/-- Model of `LinearDiscriminantClassifier.classify`:
`np.dot(samples, discrimination_matrix)` plus the broadcast constants, then
row-wise `idxmax` over the class-labelled columns. -/
def LinearDiscriminantClassifier.classify {m p : ℕ} {L : Type}
    (self : LinearDiscriminantClassifier p L) (samples : Matrix (Fin m) (Fin p) ℚ)
    (i : Fin m) : Option L :=
  (idxmax (seriesOf self.classes
    (fun c => (samples * self.discrimination_matrix) i c + self.constants c))).map Prod.fst

/-- Fitted state of `QuadraticDiscriminantClassifier`. -/
structure QuadraticDiscriminantClassifier (p : ℕ) (L : Type) where
  classes : List L
  probabilities : Fin classes.length → ℚ
  means : Matrix (Fin classes.length) (Fin p) ℚ
  covariance : Fin classes.length → Matrix (Fin p) (Fin p) ℚ
  covariance_inv : Fin classes.length → Matrix (Fin p) (Fin p) ℚ
  covariance_det : Fin classes.length → ℚ
  constants : Fin classes.length → ℚ

/-- Model of `QuadraticDiscriminantClassifier.__init__`: priors, per-class means, and
for each class its covariance, inverse and determinant; the constants are
`log(prob) - 0.5 * log(det)`.  `np.linalg.inv` fails when some class
covariance is singular. -/
def QuadraticDiscriminantClassifier.fit {n p : ℕ} {L : Type} [LinearOrder L] (lg : ℚ → ℚ)
    (coords : Matrix (Fin n) (Fin p) ℚ) (values : Fin n → L) :
    Option (QuadraticDiscriminantClassifier p L) :=
  if ∃ c ∈ classesOf values, (classCovariance coords values c).det = 0 then none
  else
    some { classes := classesOf values
           probabilities := fun c => probabilitiesOf values ((classesOf values).get c)
           means := Matrix.of fun c j => classMean coords values ((classesOf values).get c) j
           covariance := fun c => classCovariance coords values ((classesOf values).get c)
           covariance_inv := fun c => matInv (classCovariance coords values ((classesOf values).get c))
           covariance_det := fun c => (classCovariance coords values ((classesOf values).get c)).det
           constants := fun c =>
             lg (probabilitiesOf values ((classesOf values).get c)) -
               (1/2) * lg ((classCovariance coords values ((classesOf values).get c)).det) }

/-- Model of `QuadraticDiscriminantClassifier.classify`: per class,
`columns[cls] = const - 0.5 * (xs * np.dot(sigma_inv, xs.T).T).sum(1)` with
`xs = samples - mu`, assembled into a class-labelled table (`pd.concat` keeps
the sorted class order), then row-wise `idxmax`. -/
def QuadraticDiscriminantClassifier.classify {m p : ℕ} {L : Type}
    (self : QuadraticDiscriminantClassifier p L) (samples : Matrix (Fin m) (Fin p) ℚ)
    (i : Fin m) : Option L :=
  (idxmax (seriesOf self.classes (fun c =>
    self.constants c -
      (1/2) * ∑ j : Fin p,
        (samples i j - self.means c j) *
          ((self.covariance_inv c) *
            (Matrix.of fun r j => samples r j - self.means c j)ᵀ)ᵀ i j))).map Prod.fst

/-! Concrete evaluation data.

A small dataset used to exercise the fitted models: four one-dimensional
observations in two classes, plus two fresh sample points, and a
three-observation dataset whose second class has a single observation. -/

def X0 : Matrix (Fin 4) (Fin 1) ℚ := !![0; 2; 10; 12]

def y0 : Fin 4 → ℕ := ![0, 0, 1, 1]

def S0 : Matrix (Fin 2) (Fin 1) ℚ := !![1; 11]

def S1 : Matrix (Fin 1) (Fin 1) ℚ := !![0]

def X1 : Matrix (Fin 3) (Fin 1) ℚ := !![0; 2; 5]

def y1 : Fin 3 → ℕ := ![0, 0, 1]

/-! Basic properties of `idxmax`, `seriesOf` and `classesOf`. -/

theorem idxmaxFrom_mem {L : Type} (x : L × ℚ) (xs : List (L × ℚ)) :
    idxmaxFrom x xs ∈ x :: xs := by
  induction xs generalizing x with
  | nil => simp [idxmaxFrom]
  | cons z zs ih =>
    simp only [idxmaxFrom]
    split
    · exact List.mem_cons_of_mem x (ih z)
    · exact List.mem_cons_self x _

theorem idxmaxFrom_le {L : Type} (x : L × ℚ) (xs : List (L × ℚ)) :
    ∀ w ∈ x :: xs, w.2 ≤ (idxmaxFrom x xs).2 := by
  induction xs generalizing x with
  | nil =>
    intro w hw
    rcases List.mem_cons.mp hw with rfl | h
    · exact le_refl _
    · simp at h
  | cons z zs ih =>
    intro w hw
    simp only [idxmaxFrom]
    split
    · rename_i hgt
      rcases List.mem_cons.mp hw with rfl | h
      · exact le_of_lt hgt
      · exact ih z w h
    · rename_i hle
      rcases List.mem_cons.mp hw with rfl | h
      · exact le_refl _
      · exact le_trans (ih z w h) (not_lt.mp hle)

theorem idxmaxFrom_first {L : Type} [LinearOrder L] (x : L × ℚ) (xs : List (L × ℚ))
    (hp : (x :: xs).Pairwise (fun a b => a.1 < b.1)) :
    ∀ w ∈ x :: xs, (idxmaxFrom x xs).2 ≤ w.2 → (idxmaxFrom x xs).1 ≤ w.1 := by
  induction xs generalizing x with
  | nil =>
    intro w hw _
    rcases List.mem_cons.mp hw with rfl | h
    · exact le_refl _
    · simp at h
  | cons z zs ih =>
    intro w hw hle
    simp only [idxmaxFrom] at hle ⊢
    by_cases hgt : (idxmaxFrom z zs).2 > x.2
    · rw [if_pos hgt] at hle ⊢
      rcases List.mem_cons.mp hw with rfl | h
      · exact absurd (lt_of_le_of_lt hle hgt) (lt_irrefl _)
      · exact ih z (List.Pairwise.of_cons hp) w h hle
    · rw [if_neg hgt] at hle ⊢
      rcases List.mem_cons.mp hw with rfl | h
      · exact le_refl _
      · exact le_of_lt ((List.pairwise_cons.mp hp).1 w h)

theorem idxmax_eq_none {L : Type} {xs : List (L × ℚ)} : idxmax xs = none ↔ xs = [] := by
  cases xs <;> simp [idxmax]

theorem idxmax_mem {L : Type} {xs : List (L × ℚ)} {r : L × ℚ} (h : idxmax xs = some r) :
    r ∈ xs := by
  cases xs with
  | nil => simp [idxmax] at h
  | cons x xs => cases (Option.some.inj h); exact idxmaxFrom_mem x xs

theorem idxmax_le {L : Type} {xs : List (L × ℚ)} {r : L × ℚ} (h : idxmax xs = some r) :
    ∀ z ∈ xs, z.2 ≤ r.2 := by
  cases xs with
  | nil => simp [idxmax] at h
  | cons x xs => cases (Option.some.inj h); exact idxmaxFrom_le x xs

theorem idxmax_first {L : Type} [LinearOrder L] {xs : List (L × ℚ)} {r : L × ℚ}
    (hp : xs.Pairwise (fun a b => a.1 < b.1)) (h : idxmax xs = some r) :
    ∀ z ∈ xs, r.2 ≤ z.2 → r.1 ≤ z.1 := by
  cases xs with
  | nil => simp [idxmax] at h
  | cons x xs => cases (Option.some.inj h); exact idxmaxFrom_first x xs hp

theorem seriesOf_mem {L : Type} {cs : List L} {f : Fin cs.length → ℚ} {z : L × ℚ} :
    z ∈ seriesOf cs f ↔ ∃ j : Fin cs.length, z = (cs.get j, f j) := by
  simp only [seriesOf, List.mem_map, List.mem_finRange, true_and]
  exact ⟨fun ⟨j, hj⟩ => ⟨j, hj.symm⟩, fun ⟨j, hj⟩ => ⟨j, hj.symm⟩⟩

theorem seriesOf_pairwise {L : Type} [LinearOrder L] {cs : List L}
    (hc : cs.Pairwise (· < ·)) (f : Fin cs.length → ℚ) :
    (seriesOf cs f).Pairwise (fun a b => a.1 < b.1) := by
  unfold seriesOf
  rw [List.pairwise_map]
  exact (List.pairwise_lt_finRange cs.length).imp
    (fun {a b} hab => List.pairwise_iff_get.mp hc a b hab)

theorem seriesOf_eq_nil {L : Type} {cs : List L} {f : Fin cs.length → ℚ} :
    seriesOf cs f = [] ↔ cs = [] := by
  constructor
  · intro h
    have : cs.length = 0 := by
      have := congrArg List.length h
      simpa [seriesOf] using this
    exact List.length_eq_zero.mp this
  · intro h; subst h; rfl

theorem classesOf_sorted {n : ℕ} {L : Type} [LinearOrder L] (y : Fin n → L) :
    (classesOf y).Pairwise (· < ·) :=
  Finset.sort_sorted_lt _

theorem classesOf_nodup {n : ℕ} {L : Type} [LinearOrder L] (y : Fin n → L) :
    (classesOf y).Nodup :=
  Finset.sort_nodup _ _

theorem mem_classesOf {n : ℕ} {L : Type} [LinearOrder L] {y : Fin n → L} {c : L} :
    c ∈ classesOf y ↔ ∃ i, y i = c := by
  simp [classesOf, Finset.mem_sort, Finset.mem_image]

theorem classesOf_length {n : ℕ} {L : Type} [LinearOrder L] (y : Fin n → L) :
    (classesOf y).length = (Finset.image y Finset.univ).card :=
  Finset.length_sort _

/-- Summing any function over the sorted class list equals summing it over
the set of observed labels. -/
theorem sum_over_classes {n : ℕ} {L : Type} [LinearOrder L] {M : Type} [AddCommMonoid M]
    (y : Fin n → L) (f : L → M) :
    ∑ j : Fin (classesOf y).length, f ((classesOf y).get j) =
      ∑ c ∈ Finset.image y Finset.univ, f c := by
  rw [Fin.sum_univ_def]
  have h1 : (List.finRange (classesOf y).length).map (fun j => f ((classesOf y).get j)) =
      (classesOf y).map f := by
    conv_rhs => rw [← List.finRange_map_get (classesOf y)]
    rw [List.map_map]
    rfl
  rw [h1, ← List.sum_toFinset f (classesOf_nodup y)]
  unfold classesOf
  rw [Finset.sort_toFinset]

/-! Extraction lemmas for the three fits. -/

theorem lsqFit_eq {n p : ℕ} {L : Type} [LinearOrder L]
    {coords : Matrix (Fin n) (Fin p) ℚ} {values : Fin n → L} {M : LeastSquaresClassifier p L}
    (h : LeastSquaresClassifier.fit coords values = some M) :
    M = { classes := classesOf values
          betahat := (matInv (coordsᵀ * coords) * coordsᵀ) * indicator_matrix values } := by
  unfold LeastSquaresClassifier.fit at h
  split_ifs at h
  exact (Option.some.inj h).symm

theorem lsqFit_eq_none {n p : ℕ} {L : Type} [LinearOrder L]
    {coords : Matrix (Fin n) (Fin p) ℚ} {values : Fin n → L} :
    LeastSquaresClassifier.fit coords values = none ↔ (coordsᵀ * coords).det = 0 := by
  unfold LeastSquaresClassifier.fit
  split_ifs with h <;> simp [h]

theorem ldaFit_eq {n p : ℕ} {L : Type} [LinearOrder L] {lg : ℚ → ℚ}
    {coords : Matrix (Fin n) (Fin p) ℚ} {values : Fin n → L}
    {M : LinearDiscriminantClassifier p L}
    (h : LinearDiscriminantClassifier.fit lg coords values = some M) :
    M = { classes := classesOf values
          probabilities := fun c => probabilitiesOf values ((classesOf values).get c)
          means := Matrix.of fun c j => classMean coords values ((classesOf values).get c) j
          sigma := pooledSigma coords values
          sigma_inv := matInv (pooledSigma coords values)
          constants := fun c =>
            lg (probabilitiesOf values ((classesOf values).get c)) -
              (1/2) * ∑ j : Fin p,
                (Matrix.of fun c j => classMean coords values ((classesOf values).get c) j) c j *
                  (matInv (pooledSigma coords values) *
                    (Matrix.of fun c j => classMean coords values ((classesOf values).get c) j)ᵀ)ᵀ
                    c j
          discrimination_matrix :=
            matInv (pooledSigma coords values) *
              (Matrix.of fun c j => classMean coords values ((classesOf values).get c) j)ᵀ } := by
  unfold LinearDiscriminantClassifier.fit at h
  split_ifs at h
  exact (Option.some.inj h).symm

theorem ldaFit_eq_none {n p : ℕ} {L : Type} [LinearOrder L]
    {lg : ℚ → ℚ} {coords : Matrix (Fin n) (Fin p) ℚ} {values : Fin n → L} :
    LinearDiscriminantClassifier.fit lg coords values = none ↔
      ((n : ℚ) - ((classesOf values).length : ℚ) = 0 ∨ (pooledSigma coords values).det = 0) := by
  unfold LinearDiscriminantClassifier.fit
  split_ifs with h <;> simp [h]

theorem qdaFit_eq {n p : ℕ} {L : Type} [LinearOrder L] {lg : ℚ → ℚ}
    {coords : Matrix (Fin n) (Fin p) ℚ} {values : Fin n → L}
    {M : QuadraticDiscriminantClassifier p L}
    (h : QuadraticDiscriminantClassifier.fit lg coords values = some M) :
    M = { classes := classesOf values
          probabilities := fun c => probabilitiesOf values ((classesOf values).get c)
          means := Matrix.of fun c j => classMean coords values ((classesOf values).get c) j
          covariance := fun c => classCovariance coords values ((classesOf values).get c)
          covariance_inv := fun c => matInv (classCovariance coords values ((classesOf values).get c))
          covariance_det := fun c => (classCovariance coords values ((classesOf values).get c)).det
          constants := fun c =>
            lg (probabilitiesOf values ((classesOf values).get c)) -
              (1/2) * lg ((classCovariance coords values ((classesOf values).get c)).det) } := by
  unfold QuadraticDiscriminantClassifier.fit at h
  split_ifs at h
  exact (Option.some.inj h).symm

theorem qdaFit_eq_none {n p : ℕ} {L : Type} [LinearOrder L]
    {lg : ℚ → ℚ} {coords : Matrix (Fin n) (Fin p) ℚ} {values : Fin n → L} :
    QuadraticDiscriminantClassifier.fit lg coords values = none ↔
      ∃ c ∈ classesOf values, (classCovariance coords values c).det = 0 := by
  unfold QuadraticDiscriminantClassifier.fit
  split_ifs with h <;> simp [h]

/-! Claim C2: the indicator matrix. -/

/-- C2: `indicator_matrix` on a label vector of length `n` with `k` distinct
labels produces an `n × k` 0/1 matrix whose columns are the distinct labels
in ascending order, with entry `1` iff observation `i`'s label equals the
`j`-th class in sorted order; every row sums to exactly `1`. -/
theorem claim_C2 {n : ℕ} {L : Type} [LinearOrder L] (y : Fin n → L) :
    (classesOf y).Pairwise (· < ·) ∧
    ((classesOf y).length = (Finset.image y Finset.univ).card) ∧
    (∀ c : L, c ∈ classesOf y ↔ ∃ i, y i = c) ∧
    (∀ i j, (indicator_matrix y i j = 1 ↔ y i = (classesOf y).get j)) ∧
    (∀ i j, indicator_matrix y i j = 0 ∨ indicator_matrix y i j = 1) ∧
    (∀ i : Fin n, ∑ j, indicator_matrix y i j = 1) := by
  refine ⟨classesOf_sorted y, classesOf_length y, fun c => mem_classesOf, ?_, ?_, ?_⟩
  · intro i j
    simp only [indicator_matrix, Matrix.of_apply]
    split_ifs with h
    · exact iff_of_true rfl h
    · exact iff_of_false (by norm_num) h
  · intro i j
    simp only [indicator_matrix, Matrix.of_apply]
    split_ifs
    · right; rfl
    · left; rfl
  · intro i
    have hmem : y i ∈ classesOf y := mem_classesOf.mpr ⟨i, rfl⟩
    obtain ⟨j0, hj0⟩ := List.mem_iff_get.mp hmem
    simp only [indicator_matrix, Matrix.of_apply]
    rw [Finset.sum_eq_single_of_mem j0 (Finset.mem_univ j0)]
    · rw [if_pos hj0.symm]
    · intro b _ hb
      rw [if_neg]
      intro hyb
      exact hb ((List.Nodup.get_inj_iff (classesOf_nodup y)).mp (hyb.symm.trans hj0.symm))

/-! Claim C7: behaviour on the empty label vector. -/

/-- C7 counterexample: on the empty label vector `indicator_matrix` does not
fail; it silently returns the empty matrix (no rows, and its class list —
hence its column set — is empty). -/
theorem claim_C7_counterexample :
    classesOf (fun _ : Fin 0 => (0 : ℕ)) = [] ∧
    indicator_matrix (fun _ : Fin 0 => (0 : ℕ)) = Matrix.of (fun i _ => Fin.elim0 i) := by
  constructor
  · with_unfolding_all rfl
  · funext i
    exact i.elim0

/-- C7 (amended): `indicator_matrix` is a pure total function that never
fails; the class set is empty exactly when the label vector is empty, in
which case the result is the (silently) empty matrix; on every input each
entry is given by the membership test. -/
theorem claim_C7 {n : ℕ} {L : Type} [LinearOrder L] (y : Fin n → L) :
    (classesOf y = [] ↔ n = 0) ∧
    (∀ i j, indicator_matrix y i j = if y i = (classesOf y).get j then 1 else 0) := by
  constructor
  · rw [← List.length_eq_zero, classesOf_length, Finset.card_eq_zero, Finset.image_eq_empty]
    constructor
    · intro h
      by_contra hn
      exact absurd (Finset.mem_univ (⟨0, Nat.pos_of_ne_zero hn⟩ : Fin n)) (by simp [h])
    · intro h
      subst h
      rfl
  · intro i j
    rfl

/-! Claim C9: the classification error rate. -/

/-- C9: for any classifier (any value of the `Classification` capability),
evaluation features and true labels of the same length `m > 0`,
`classification_error_rate` returns exactly the fraction of rows whose
prediction differs from the true label, and that fraction lies in `[0, 1]`. -/
theorem claim_C9 {m p : ℕ} {L : Type} [DecidableEq L]
    (classifier : Matrix (Fin m) (Fin p) ℚ → Fin m → Option L)
    (coords : Matrix (Fin m) (Fin p) ℚ) (values : Fin m → L) (hm : 0 < m) :
    classification_error_rate classifier coords values =
      ((Finset.univ.filter (fun i => classifier coords i ≠ some (values i))).card : ℚ) / m ∧
    0 ≤ classification_error_rate classifier coords values ∧
    classification_error_rate classifier coords values ≤ 1 := by
  have hm' : (0 : ℚ) < m := by exact_mod_cast hm
  refine ⟨rfl, ?_, ?_⟩
  · unfold classification_error_rate
    positivity
  · unfold classification_error_rate
    rw [div_le_one hm']
    exact_mod_cast (Finset.card_filter_le _ _).trans (le_of_eq (Finset.card_univ.trans (Fintype.card_fin m)))

/-- C9 witness: a concrete classifier, feature matrix and label vector. -/
theorem claim_C9_witness :
    (0 < 1) ∧
    (classification_error_rate (fun _ _ => some (0 : ℕ)) (!![(0 : ℚ)]) ![0] =
      ((Finset.univ.filter (fun i => (fun (_ : Matrix (Fin 1) (Fin 1) ℚ) (_ : Fin 1) => some (0 : ℕ)) (!![(0 : ℚ)]) i ≠ some ((![0] : Fin 1 → ℕ) i))).card : ℚ) / 1 ∧
      0 ≤ classification_error_rate (fun _ _ => some (0 : ℕ)) (!![(0 : ℚ)]) ![0] ∧
      classification_error_rate (fun _ _ => some (0 : ℕ)) (!![(0 : ℚ)]) ![0] ≤ 1) :=
  ⟨by decide, claim_C9 (fun _ _ => some (0 : ℕ)) (!![(0 : ℚ)]) ![0] (by decide)⟩

/-! Claim C10: the fitted priors. -/

theorem probabilitiesOf_pos {n : ℕ} {L : Type} [LinearOrder L] {y : Fin n → L} {c : L}
    (hc : c ∈ classesOf y) : 0 < probabilitiesOf y c := by
  obtain ⟨i, hi⟩ := mem_classesOf.mp hc
  have hcount : 0 < classCount y c :=
    Finset.card_pos.mpr ⟨i, Finset.mem_filter.mpr ⟨Finset.mem_univ i, hi⟩⟩
  have hle : classCount y c ≤ n := by
    unfold classCount
    calc (Finset.univ.filter (fun i => y i = c)).card
        ≤ (Finset.univ : Finset (Fin n)).card := Finset.card_filter_le _ _
      _ = n := by simp
  have hn : 0 < n := lt_of_lt_of_le hcount hle
  unfold probabilitiesOf
  apply div_pos <;> exact_mod_cast (by assumption)

theorem sum_probabilitiesOf {n : ℕ} {L : Type} [LinearOrder L] (y : Fin n → L) (hn : 0 < n) :
    ∑ j : Fin (classesOf y).length, probabilitiesOf y ((classesOf y).get j) = 1 := by
  rw [sum_over_classes y (probabilitiesOf y)]
  unfold probabilitiesOf
  rw [← Finset.sum_div]
  have hsum : ∑ c ∈ Finset.image y Finset.univ, (classCount y c : ℚ) = (n : ℚ) := by
    have h := Finset.card_eq_sum_card_fiberwise
      (fun x (_ : x ∈ (Finset.univ : Finset (Fin n))) => Finset.mem_image_of_mem y (Finset.mem_univ x))
    have h2 : (Finset.univ : Finset (Fin n)).card = n := by simp
    unfold classCount
    exact_mod_cast (h2 ▸ h).symm
  rw [hsum, div_self (by exact_mod_cast hn.ne')]

/-- C10: on a non-empty training set, the priors fitted by both discriminant
classifiers are strictly positive for every class and sum to exactly 1. -/
theorem claim_C10 {n p : ℕ} {L : Type} [LinearOrder L] (lg : ℚ → ℚ)
    (X : Matrix (Fin n) (Fin p) ℚ) (y : Fin n → L) (hn : 0 < n) :
    (∀ M : LinearDiscriminantClassifier p L, LinearDiscriminantClassifier.fit lg X y = some M →
       (∀ c, 0 < M.probabilities c) ∧ ∑ c, M.probabilities c = 1) ∧
    (∀ M : QuadraticDiscriminantClassifier p L, QuadraticDiscriminantClassifier.fit lg X y = some M →
       (∀ c, 0 < M.probabilities c) ∧ ∑ c, M.probabilities c = 1) := by
  constructor
  · intro M hM
    obtain rfl := ldaFit_eq hM
    exact ⟨fun c => probabilitiesOf_pos (List.get_mem _ c.1 c.2), sum_probabilitiesOf y hn⟩
  · intro M hM
    obtain rfl := qdaFit_eq hM
    exact ⟨fun c => probabilitiesOf_pos (List.get_mem _ c.1 c.2), sum_probabilitiesOf y hn⟩

/-- C10 witness: both discriminant classifiers fit successfully on the
concrete dataset `X0, y0`, and their priors are positive and sum to 1. -/
theorem claim_C10_witness :
    (LinearDiscriminantClassifier.fit id X0 y0).elim False
      (fun M => (∀ c, 0 < M.probabilities c) ∧ ∑ c, M.probabilities c = 1) ∧
    (QuadraticDiscriminantClassifier.fit id X0 y0).elim False
      (fun M => (∀ c, 0 < M.probabilities c) ∧ ∑ c, M.probabilities c = 1) := by
  constructor
  · have h : (LinearDiscriminantClassifier.fit id X0 y0).isSome := by
      with_unfolding_all decide
    rcases hM : LinearDiscriminantClassifier.fit id X0 y0 with _ | M
    · rw [hM] at h; simp at h
    · exact (claim_C10 id X0 y0 (by decide)).1 M hM
  · have h : (QuadraticDiscriminantClassifier.fit id X0 y0).isSome := by
      with_unfolding_all decide
    rcases hM : QuadraticDiscriminantClassifier.fit id X0 y0 with _ | M
    · rw [hM] at h; simp at h
    · exact (claim_C10 id X0 y0 (by decide)).2 M hM

/-! Claims C1, C5, C6: classification output. -/

theorem classify_label_mem {L : Type} {cs : List L} {f : Fin cs.length → ℚ} {l : L}
    (h : (idxmax (seriesOf cs f)).map Prod.fst = some l) : l ∈ cs := by
  rcases Option.map_eq_some'.mp h with ⟨r, hr, hl⟩
  subst hl
  rcases seriesOf_mem.mp (idxmax_mem hr) with ⟨j, rfl⟩
  exact List.get_mem _ j.1 j.2

theorem idxmax_series_spec {L : Type} [LinearOrder L] {cs : List L} (hst : cs.Pairwise (· < ·))
    {f : Fin cs.length → ℚ} {r : L × ℚ} (hr : idxmax (seriesOf cs f) = some r) :
    ∀ z ∈ seriesOf cs f, z.2 ≤ r.2 ∧ (r.2 ≤ z.2 → r.1 ≤ z.1) :=
  fun z hz => ⟨idxmax_le hr z hz, fun h => idxmax_first (seriesOf_pairwise hst f) hr z hz h⟩

/-- C1: whichever of the three classifiers was fitted, every label returned
by `classify` is a member of the Class set (the sorted distinct training
labels) recorded at fit time. -/
theorem claim_C1 {n p m : ℕ} {L : Type} [LinearOrder L] (lg : ℚ → ℚ)
    (X : Matrix (Fin n) (Fin p) ℚ) (y : Fin n → L)
    (samples : Matrix (Fin m) (Fin p) ℚ) (i : Fin m) (l : L) :
    (∀ M : LeastSquaresClassifier p L, LeastSquaresClassifier.fit X y = some M →
       M.classify samples i = some l → l ∈ classesOf y) ∧
    (∀ M : LinearDiscriminantClassifier p L, LinearDiscriminantClassifier.fit lg X y = some M →
       M.classify samples i = some l → l ∈ classesOf y) ∧
    (∀ M : QuadraticDiscriminantClassifier p L, QuadraticDiscriminantClassifier.fit lg X y = some M →
       M.classify samples i = some l → l ∈ classesOf y) := by
  refine ⟨?_, ?_, ?_⟩
  · intro M hM h
    obtain rfl := lsqFit_eq hM
    exact classify_label_mem h
  · intro M hM h
    obtain rfl := ldaFit_eq hM
    exact classify_label_mem h
  · intro M hM h
    obtain rfl := qdaFit_eq hM
    exact classify_label_mem h

/-- C1 witness: on the concrete dataset all three fits succeed and the
concrete predictions land in the fitted Class set. -/
theorem claim_C1_witness :
    ((LeastSquaresClassifier.fit X0 y0).bind (fun M => M.classify S0 0) = some 1 ∧
      (1 : ℕ) ∈ classesOf y0) ∧
    ((LinearDiscriminantClassifier.fit id X0 y0).bind (fun M => M.classify S0 0) = some 0 ∧
      (0 : ℕ) ∈ classesOf y0) ∧
    ((QuadraticDiscriminantClassifier.fit id X0 y0).bind (fun M => M.classify S0 0) = some 0 ∧
      (0 : ℕ) ∈ classesOf y0) := by
  refine ⟨⟨by with_unfolding_all decide, ?_⟩, ⟨by with_unfolding_all decide, ?_⟩,
    ⟨by with_unfolding_all decide, ?_⟩⟩
  · rcases hM : LeastSquaresClassifier.fit X0 y0 with _ | M
    · have : (LeastSquaresClassifier.fit X0 y0).isSome := by with_unfolding_all decide
      rw [hM] at this; simp at this
    · exact (claim_C1 id X0 y0 S0 0 1).1 M hM (by
        have h2 : (LeastSquaresClassifier.fit X0 y0).bind (fun M => M.classify S0 0) = some 1 := by
          with_unfolding_all decide
        rw [hM] at h2; exact h2)
  · rcases hM : LinearDiscriminantClassifier.fit id X0 y0 with _ | M
    · have : (LinearDiscriminantClassifier.fit id X0 y0).isSome := by with_unfolding_all decide
      rw [hM] at this; simp at this
    · exact (claim_C1 id X0 y0 S0 0 0).2.1 M hM (by
        have h2 : (LinearDiscriminantClassifier.fit id X0 y0).bind (fun M => M.classify S0 0) = some 0 := by
          with_unfolding_all decide
        rw [hM] at h2; exact h2)
  · rcases hM : QuadraticDiscriminantClassifier.fit id X0 y0 with _ | M
    · have : (QuadraticDiscriminantClassifier.fit id X0 y0).isSome := by with_unfolding_all decide
      rw [hM] at this; simp at this
    · exact (claim_C1 id X0 y0 S0 0 0).2.2 M hM (by
        have h2 : (QuadraticDiscriminantClassifier.fit id X0 y0).bind (fun M => M.classify S0 0) = some 0 := by
          with_unfolding_all decide
        rw [hM] at h2; exact h2)

/-- C5: on every classify input row, the returned label is the first —
lowest in the ascending sorted Class-set order — among the classes attaining
the maximal score: the label of the `idxmax` pair `r` is the prediction,
every class's score is at most `r.2`, and any class whose score ties `r.2`
has a label `≥ r.1`. -/
theorem claim_C5 {n p m : ℕ} {L : Type} [LinearOrder L] (lg : ℚ → ℚ)
    (X : Matrix (Fin n) (Fin p) ℚ) (y : Fin n → L)
    (samples : Matrix (Fin m) (Fin p) ℚ) (i : Fin m) :
    (∀ M : LeastSquaresClassifier p L, LeastSquaresClassifier.fit X y = some M →
      ∀ r, idxmax (seriesOf M.classes (fun j => (samples * M.betahat) i j)) = some r →
        M.classify samples i = some r.1 ∧
        ∀ z ∈ seriesOf M.classes (fun j => (samples * M.betahat) i j),
          z.2 ≤ r.2 ∧ (r.2 ≤ z.2 → r.1 ≤ z.1)) ∧
    (∀ M : LinearDiscriminantClassifier p L, LinearDiscriminantClassifier.fit lg X y = some M →
      ∀ r, idxmax (seriesOf M.classes
          (fun c => (samples * M.discrimination_matrix) i c + M.constants c)) = some r →
        M.classify samples i = some r.1 ∧
        ∀ z ∈ seriesOf M.classes
            (fun c => (samples * M.discrimination_matrix) i c + M.constants c),
          z.2 ≤ r.2 ∧ (r.2 ≤ z.2 → r.1 ≤ z.1)) ∧
    (∀ M : QuadraticDiscriminantClassifier p L, QuadraticDiscriminantClassifier.fit lg X y = some M →
      ∀ r, idxmax (seriesOf M.classes (fun c =>
          M.constants c -
            (1/2) * ∑ j : Fin p,
              (samples i j - M.means c j) *
                ((M.covariance_inv c) *
                  (Matrix.of fun r j => samples r j - M.means c j)ᵀ)ᵀ i j)) = some r →
        M.classify samples i = some r.1 ∧
        ∀ z ∈ seriesOf M.classes (fun c =>
            M.constants c -
              (1/2) * ∑ j : Fin p,
                (samples i j - M.means c j) *
                  ((M.covariance_inv c) *
                    (Matrix.of fun r j => samples r j - M.means c j)ᵀ)ᵀ i j),
          z.2 ≤ r.2 ∧ (r.2 ≤ z.2 → r.1 ≤ z.1)) := by
  refine ⟨?_, ?_, ?_⟩
  · intro M hM r hr
    obtain rfl := lsqFit_eq hM
    exact ⟨by rw [LeastSquaresClassifier.classify, hr]; rfl,
      idxmax_series_spec (classesOf_sorted y) hr⟩
  · intro M hM r hr
    obtain rfl := ldaFit_eq hM
    exact ⟨by rw [LinearDiscriminantClassifier.classify, hr]; rfl,
      idxmax_series_spec (classesOf_sorted y) hr⟩
  · intro M hM r hr
    obtain rfl := qdaFit_eq hM
    exact ⟨by rw [QuadraticDiscriminantClassifier.classify, hr]; rfl,
      idxmax_series_spec (classesOf_sorted y) hr⟩

/-- C5 witness: on the concrete dataset, the least-squares scores at the
sample point `0` tie exactly (`0` for both classes) and the prediction is
the lower-sorted class `0`; the two discriminant classifiers are exercised
at the sample point `1`. -/
theorem claim_C5_witness :
    ((LeastSquaresClassifier.fit X0 y0).elim False (fun M =>
      M.classify S1 0 = some (0 : ℕ) ∧
      ∀ z ∈ seriesOf M.classes (fun j => (S1 * M.betahat) 0 j),
        z.2 ≤ (0 : ℚ) ∧ ((0 : ℚ) ≤ z.2 → (0 : ℕ) ≤ z.1))) ∧
    ((LinearDiscriminantClassifier.fit id X0 y0).elim False (fun M =>
      M.classify S0 0 = some (0 : ℕ) ∧
      ∀ z ∈ seriesOf M.classes
          (fun c => (S0 * M.discrimination_matrix) 0 c + M.constants c),
        z.2 ≤ (3/4 : ℚ) ∧ ((3/4 : ℚ) ≤ z.2 → (0 : ℕ) ≤ z.1))) ∧
    ((QuadraticDiscriminantClassifier.fit id X0 y0).elim False (fun M =>
      M.classify S0 0 = some (0 : ℕ) ∧
      ∀ z ∈ seriesOf M.classes (fun c =>
          M.constants c -
            (1/2) * ∑ j : Fin 1,
              (S0 0 j - M.means c j) *
                ((M.covariance_inv c) *
                  (Matrix.of fun r j => S0 r j - M.means c j)ᵀ)ᵀ 0 j),
        z.2 ≤ (-1/2 : ℚ) ∧ ((-1/2 : ℚ) ≤ z.2 → (0 : ℕ) ≤ z.1))) := by
  refine ⟨?_, ?_, ?_⟩
  · rcases hM : LeastSquaresClassifier.fit X0 y0 with _ | M
    · have : (LeastSquaresClassifier.fit X0 y0).isSome := by with_unfolding_all decide
      rw [hM] at this; simp at this
    · have hr : idxmax (seriesOf M.classes (fun j => (S1 * M.betahat) 0 j)) =
          some ((0 : ℕ), (0 : ℚ)) := by
        have h2 : (LeastSquaresClassifier.fit X0 y0).bind
            (fun M => idxmax (seriesOf M.classes (fun j => (S1 * M.betahat) 0 j))) =
            some ((0 : ℕ), (0 : ℚ)) := by with_unfolding_all decide
        rw [hM] at h2; exact h2
      exact (claim_C5 id X0 y0 S1 0).1 M hM ((0 : ℕ), (0 : ℚ)) hr
  · rcases hM : LinearDiscriminantClassifier.fit id X0 y0 with _ | M
    · have : (LinearDiscriminantClassifier.fit id X0 y0).isSome := by with_unfolding_all decide
      rw [hM] at this; simp at this
    · have hr : idxmax (seriesOf M.classes
          (fun c => (S0 * M.discrimination_matrix) 0 c + M.constants c)) =
          some ((0 : ℕ), (3/4 : ℚ)) := by
        have h2 : (LinearDiscriminantClassifier.fit id X0 y0).bind
            (fun M => idxmax (seriesOf M.classes
              (fun c => (S0 * M.discrimination_matrix) 0 c + M.constants c))) =
            some ((0 : ℕ), (3/4 : ℚ)) := by with_unfolding_all decide
        rw [hM] at h2; exact h2
      exact (claim_C5 id X0 y0 S0 0).2.1 M hM ((0 : ℕ), (3/4 : ℚ)) hr
  · rcases hM : QuadraticDiscriminantClassifier.fit id X0 y0 with _ | M
    · have : (QuadraticDiscriminantClassifier.fit id X0 y0).isSome := by with_unfolding_all decide
      rw [hM] at this; simp at this
    · have hr : idxmax (seriesOf M.classes (fun c =>
          M.constants c -
            (1/2) * ∑ j : Fin 1,
              (S0 0 j - M.means c j) *
                ((M.covariance_inv c) *
                  (Matrix.of fun r j => S0 r j - M.means c j)ᵀ)ᵀ 0 j)) =
          some ((0 : ℕ), (-1/2 : ℚ)) := by
        have h2 : (QuadraticDiscriminantClassifier.fit id X0 y0).bind
            (fun M => idxmax (seriesOf M.classes (fun c =>
              M.constants c -
                (1/2) * ∑ j : Fin 1,
                  (S0 0 j - M.means c j) *
                    ((M.covariance_inv c) *
                      (Matrix.of fun r j => S0 r j - M.means c j)ᵀ)ᵀ 0 j))) =
            some ((0 : ℕ), (-1/2 : ℚ)) := by with_unfolding_all decide
        rw [hM] at h2; exact h2
      exact (claim_C5 id X0 y0 S0 0).2.2 M hM ((0 : ℕ), (-1/2 : ℚ)) hr

theorem matInv_mul {p : ℕ} {A : Matrix (Fin p) (Fin p) ℚ} (h : A.det ≠ 0) :
    matInv A * A = 1 := by
  unfold matInv
  rw [if_neg h, Matrix.smul_mul, Matrix.adjugate_mul, smul_smul,
    inv_mul_cancel₀ h, one_smul]

/-- C6: the least-squares fit stores the sorted classes and the coefficient
matrix `B = (XᵀX)⁻¹ Xᵀ Y` (one column per class, `Y` the indicator matrix),
where `matInv` really is the matrix inverse whenever `XᵀX` is invertible;
`classify` computes scores `S = X'·B` and returns, for each row, a class
whose column attains the maximal score. -/
theorem claim_C6 {n p m : ℕ} {L : Type} [LinearOrder L]
    (X : Matrix (Fin n) (Fin p) ℚ) (y : Fin n → L)
    (samples : Matrix (Fin m) (Fin p) ℚ) (i : Fin m) :
    ((Xᵀ * X).det ≠ 0 → matInv (Xᵀ * X) * (Xᵀ * X) = 1) ∧
    (∀ M : LeastSquaresClassifier p L, LeastSquaresClassifier.fit X y = some M →
      (M = { classes := classesOf y
             betahat := (matInv (Xᵀ * X) * Xᵀ) * indicator_matrix y }) ∧
      (∀ l, M.classify samples i = some l →
        ∃ j : Fin M.classes.length, M.classes.get j = l ∧
          ∀ j', (samples * M.betahat) i j' ≤ (samples * M.betahat) i j)) := by
  refine ⟨fun h => matInv_mul h, ?_⟩
  intro M hM
  obtain rfl := lsqFit_eq hM
  refine ⟨rfl, ?_⟩
  intro l hl
  rcases Option.map_eq_some'.mp hl with ⟨r, hr, hl'⟩
  subst hl'
  rcases seriesOf_mem.mp (idxmax_mem hr) with ⟨j, rfl⟩
  refine ⟨j, rfl, ?_⟩
  intro j'
  exact idxmax_le hr _ (seriesOf_mem.mpr ⟨j', rfl⟩)

/-- C6 witness: the concrete least-squares fit on `X0, y0`, with invertible
`X0ᵀX0`, its coefficient matrix, and the argmax property of the prediction
at the concrete sample matrix `S0`. -/
theorem claim_C6_witness :
    (matInv (X0ᵀ * X0) * (X0ᵀ * X0) = 1) ∧
    ((LeastSquaresClassifier.fit X0 y0).elim False (fun M =>
      (M = { classes := classesOf y0
             betahat := (matInv (X0ᵀ * X0) * X0ᵀ) * indicator_matrix y0 }) ∧
      ∃ j : Fin M.classes.length, M.classes.get j = 1 ∧
        ∀ j', (S0 * M.betahat) 0 j' ≤ (S0 * M.betahat) 0 j)) := by
  constructor
  · exact (claim_C6 X0 y0 S0 0).1 (by with_unfolding_all decide)
  · rcases hM : LeastSquaresClassifier.fit X0 y0 with _ | M
    · have : (LeastSquaresClassifier.fit X0 y0).isSome := by with_unfolding_all decide
      rw [hM] at this; simp at this
    · have hcl : M.classify S0 0 = some (1 : ℕ) := by
        have h2 : (LeastSquaresClassifier.fit X0 y0).bind (fun M => M.classify S0 0) =
            some (1 : ℕ) := by with_unfolding_all decide
        rw [hM] at h2; exact h2
      exact ⟨((claim_C6 X0 y0 S0 0).2 M hM).1,
        ((claim_C6 X0 y0 S0 0).2 M hM).2 1 hcl⟩

/-! Claim C3: the pooled covariance of LDA. -/

theorem classesOf_length_le {n : ℕ} {L : Type} [LinearOrder L] (y : Fin n → L) :
    (classesOf y).length ≤ n := by
  rw [classesOf_length]
  calc (Finset.image y Finset.univ).card ≤ (Finset.univ : Finset (Fin n)).card :=
        Finset.card_image_le
    _ = n := by simp

/-- C3: the number of classes never exceeds `n`; a fitted LDA's pooled
covariance equals the sum over all `n` training observations of the outer
product of (observation minus its class mean) with itself, divided by
`n - k`; and the fit fails precisely when `n - k ≤ 0` (that is, `n ≤ k`) or
that pooled covariance is singular. -/
theorem claim_C3 {n p : ℕ} {L : Type} [LinearOrder L] (lg : ℚ → ℚ)
    (X : Matrix (Fin n) (Fin p) ℚ) (y : Fin n → L) :
    ((classesOf y).length ≤ n) ∧
    (∀ M : LinearDiscriminantClassifier p L, LinearDiscriminantClassifier.fit lg X y = some M →
      M.sigma = ((n : ℚ) - ((classesOf y).length : ℚ))⁻¹ •
        ∑ i : Fin n, vecMulVec (residualOf X y i) (residualOf X y i) ∧
      ((n : ℚ) - ((classesOf y).length : ℚ)) • M.sigma =
        ∑ i : Fin n, vecMulVec (residualOf X y i) (residualOf X y i)) ∧
    (LinearDiscriminantClassifier.fit lg X y = none ↔
      n ≤ (classesOf y).length ∨ (pooledSigma X y).det = 0) := by
  refine ⟨classesOf_length_le y, ?_, ?_⟩
  · intro M hM
    have hnone : ¬((n : ℚ) - ((classesOf y).length : ℚ) = 0 ∨ (pooledSigma X y).det = 0) := by
      intro hc
      have hnone := (@ldaFit_eq_none n p L _ lg X y).mpr hc
      rw [hM] at hnone
      exact Option.some_ne_none M hnone
    push_neg at hnone
    obtain rfl := ldaFit_eq hM
    refine ⟨rfl, ?_⟩
    show ((n : ℚ) - ((classesOf y).length : ℚ)) • pooledSigma X y = _
    unfold pooledSigma
    rw [smul_smul, mul_inv_cancel₀ hnone.1, one_smul]
  · rw [ldaFit_eq_none]
    have hk : (classesOf y).length ≤ n := classesOf_length_le y
    constructor
    · rintro (h | h)
      · left
        have : (n : ℚ) = ((classesOf y).length : ℚ) := by linarith [sub_eq_zero.mp h]
        exact le_of_eq (by exact_mod_cast this)
      · exact Or.inr h
    · rintro (h | h)
      · left
        have heq : n = (classesOf y).length := le_antisymm h hk
        have : ((n : ℚ)) = ((classesOf y).length : ℚ) := by exact_mod_cast heq
        rw [this, sub_self]
      · exact Or.inr h

/-- C3 witness: the concrete LDA fit on `X0, y0` (4 observations, 2
classes), whose pooled covariance satisfies the claimed formula. -/
theorem claim_C3_witness :
    ((classesOf y0).length ≤ 4) ∧
    ((LinearDiscriminantClassifier.fit id X0 y0).elim False (fun M =>
      M.sigma = (((4 : ℕ) : ℚ) - ((classesOf y0).length : ℚ))⁻¹ •
        ∑ i : Fin 4, vecMulVec (residualOf X0 y0 i) (residualOf X0 y0 i) ∧
      (((4 : ℕ) : ℚ) - ((classesOf y0).length : ℚ)) • M.sigma =
        ∑ i : Fin 4, vecMulVec (residualOf X0 y0 i) (residualOf X0 y0 i))) := by
  constructor
  · exact (claim_C3 id X0 y0).1
  · rcases hM : LinearDiscriminantClassifier.fit id X0 y0 with _ | M
    · have : (LinearDiscriminantClassifier.fit id X0 y0).isSome := by
        with_unfolding_all decide
      rw [hM] at this; simp at this
    · exact (claim_C3 id X0 y0).2.1 M hM

/-! Claim C4: singular per-class covariance in QDA. -/

theorem sum_residualOf_eq_zero {n p : ℕ} {L : Type} [DecidableEq L]
    (X : Matrix (Fin n) (Fin p) ℚ) (y : Fin n → L) (c : L) (j : Fin p) :
    ∑ i ∈ Finset.univ.filter (fun i => y i = c), residualOf X y i j = 0 := by
  by_cases hm : classCount y c = 0
  · have hempty : Finset.univ.filter (fun i => y i = c) = ∅ := Finset.card_eq_zero.mp hm
    rw [hempty, Finset.sum_empty]
  · have hstep : ∀ i ∈ Finset.univ.filter (fun i => y i = c),
        residualOf X y i j = X i j - classMean X y c j := by
      intro i hi
      simp only [residualOf]
      rw [(Finset.mem_filter.mp hi).2]
    rw [Finset.sum_congr rfl hstep, Finset.sum_sub_distrib, Finset.sum_const, nsmul_eq_mul]
    show (∑ i ∈ Finset.univ.filter (fun i => y i = c), X i j) -
      (classCount y c : ℚ) *
        ((∑ i ∈ Finset.univ.filter (fun i => y i = c), X i j) / (classCount y c : ℚ)) = 0
    rw [mul_comm, div_mul_cancel₀ _ (by exact_mod_cast hm), sub_self]

/-- A class whose observation count is at most the feature dimension `p` has
an exactly singular empirical covariance: its residuals sum to zero, so the
residual matrix has rank at most `count - 1 < p`. -/
theorem classCovariance_det_eq_zero {n p : ℕ} {L : Type} [LinearOrder L]
    (X : Matrix (Fin n) (Fin p) ℚ) (y : Fin n → L) {c : L}
    (hmem : c ∈ classesOf y) (hcount : classCount y c ≤ p) :
    (classCovariance X y c).det = 0 := by
  classical
  set S := Finset.univ.filter (fun i => y i = c) with hS
  have hm1 : 1 ≤ S.card := by
    obtain ⟨i, hi⟩ := mem_classesOf.mp hmem
    exact Finset.card_pos.mpr ⟨i, Finset.mem_filter.mpr ⟨Finset.mem_univ i, hi⟩⟩
  have hmp : S.card ≤ p := hcount
  set A : Matrix {x // x ∈ S} (Fin p) ℚ := Matrix.of (fun i j => residualOf X y i.1 j) with hA
  have hcol : ∀ j, ∑ i : {x // x ∈ S}, A i j = 0 := by
    intro j
    rw [Finset.univ_eq_attach]
    show ∑ i ∈ S.attach, residualOf X y (↑i) j = 0
    rw [Finset.sum_attach S (fun i => residualOf X y i j)]
    exact sum_residualOf_eq_zero X y c j
  obtain ⟨w, hw0, hAw⟩ : ∃ w : Fin p → ℚ, w ≠ 0 ∧ A.mulVec w = 0 := by
    let sumF : ({x // x ∈ S} → ℚ) →ₗ[ℚ] ℚ :=
      { toFun := fun u => ∑ i, u i
        map_add' := by intro u v; simp [Finset.sum_add_distrib]
        map_smul' := by intro a u; simp [Finset.mul_sum] }
    have hrange : LinearMap.range (Matrix.mulVecLin A) ≤ LinearMap.ker sumF := by
      rintro u ⟨w, rfl⟩
      simp only [LinearMap.mem_ker, Matrix.mulVecLin_apply]
      show ∑ i, A.mulVec w i = 0
      unfold Matrix.mulVec Matrix.dotProduct
      rw [Finset.sum_comm]
      rw [Finset.sum_congr rfl (fun j _ => (Finset.sum_mul _ _ _).symm)]
      rw [Finset.sum_congr rfl (fun j _ => by rw [hcol j, zero_mul])]
      exact Finset.sum_const_zero
    have h1 : Module.finrank ℚ (LinearMap.range (Matrix.mulVecLin A)) +
        Module.finrank ℚ (LinearMap.ker (Matrix.mulVecLin A)) = p := by
      rw [LinearMap.finrank_range_add_finrank_ker]
      simp [Module.finrank_fintype_fun_eq_card]
    have h2 : Module.finrank ℚ (LinearMap.range sumF) +
        Module.finrank ℚ (LinearMap.ker sumF) = S.card := by
      rw [LinearMap.finrank_range_add_finrank_ker]
      simp [Module.finrank_fintype_fun_eq_card]
    have hrange1 : 1 ≤ Module.finrank ℚ (LinearMap.range sumF) := by
      by_contra h
      push_neg at h
      have h0 : Module.finrank ℚ (LinearMap.range sumF) = 0 := Nat.lt_one_iff.mp h
      have hbot : LinearMap.range sumF = ⊥ := Submodule.finrank_eq_zero.mp h0
      obtain ⟨i0, hi0⟩ := Finset.card_pos.mp hm1
      have hone : sumF (Pi.single ⟨i0, hi0⟩ 1) = 1 := by
        show ∑ i, Pi.single (⟨i0, hi0⟩ : {x // x ∈ S}) (1 : ℚ) i = 1
        simp [Pi.single_apply]
      have hmem' : (1 : ℚ) ∈ LinearMap.range sumF := ⟨_, hone⟩
      rw [hbot] at hmem'
      simp at hmem'
    have hrangeA : Module.finrank ℚ (LinearMap.range (Matrix.mulVecLin A)) ≤
        Module.finrank ℚ (LinearMap.ker sumF) := Submodule.finrank_mono hrange
    have hkerA : 1 ≤ Module.finrank ℚ (LinearMap.ker (Matrix.mulVecLin A)) := by omega
    have hne : LinearMap.ker (Matrix.mulVecLin A) ≠ ⊥ := by
      intro hbot
      rw [hbot, finrank_bot] at hkerA
      exact absurd hkerA (by norm_num)
    obtain ⟨w, hwker, hw0⟩ := (Submodule.ne_bot_iff _).mp hne
    refine ⟨w, hw0, ?_⟩
    have := LinearMap.mem_ker.mp hwker
    rwa [Matrix.mulVecLin_apply] at this
  have hGA : ∑ i ∈ S, vecMulVec (residualOf X y i) (residualOf X y i) = Aᵀ * A := by
    ext j j'
    rw [Matrix.sum_apply, Matrix.mul_apply, Finset.univ_eq_attach]
    show ∑ i ∈ S, vecMulVec (residualOf X y i) (residualOf X y i) j j'
        = ∑ i ∈ S.attach, residualOf X y (↑i) j * residualOf X y (↑i) j'
    rw [Finset.sum_attach S (fun i => residualOf X y i j * residualOf X y i j')]
    exact Finset.sum_congr rfl (fun i _ => by rw [Matrix.vecMulVec_apply])
  have hMw : (classCovariance X y c).mulVec w = 0 := by
    show (((classCount y c : ℚ) - 1)⁻¹ •
      ∑ i ∈ S, vecMulVec (residualOf X y i) (residualOf X y i)).mulVec w = 0
    rw [hGA, Matrix.smul_mulVec_assoc, ← Matrix.mulVec_mulVec, hAw,
      Matrix.mulVec_zero, smul_zero]
  exact Matrix.exists_mulVec_eq_zero_iff.mp ⟨w, hw0, hMw⟩

/-- C4: QDA computes each class's covariance only from that class's rows
with unbiased degrees of freedom `count - 1`, and whenever some observed
class has fewer than `p + 1` observations the fit fails (that class's
covariance is exactly singular, so `np.linalg.inv` raises). -/
theorem claim_C4 {n p : ℕ} {L : Type} [LinearOrder L] (lg : ℚ → ℚ)
    (X : Matrix (Fin n) (Fin p) ℚ) (y : Fin n → L) :
    (∀ c : L, classCovariance X y c = ((classCount y c : ℚ) - 1)⁻¹ •
        ∑ i ∈ Finset.univ.filter (fun i => y i = c),
          vecMulVec (residualOf X y i) (residualOf X y i)) ∧
    (∀ M : QuadraticDiscriminantClassifier p L,
       QuadraticDiscriminantClassifier.fit lg X y = some M →
       ∀ c, M.covariance c = classCovariance X y (M.classes.get c)) ∧
    (∀ c ∈ classesOf y, classCount y c ≤ p →
       QuadraticDiscriminantClassifier.fit lg X y = none) := by
  refine ⟨fun c => rfl, ?_, ?_⟩
  · intro M hM c
    obtain rfl := qdaFit_eq hM
    rfl
  · intro c hc hcount
    exact qdaFit_eq_none.mpr
      ⟨c, hc, classCovariance_det_eq_zero X y hc hcount⟩

/-- C4 witness: in the dataset `X1, y1` class `1` has a single observation
in one feature dimension, so the QDA fit fails. -/
theorem claim_C4_witness :
    ((1 : ℕ) ∈ classesOf y1) ∧ classCount y1 1 ≤ 1 ∧
    QuadraticDiscriminantClassifier.fit id X1 y1 = none :=
  ⟨by with_unfolding_all decide, by with_unfolding_all decide,
    (claim_C4 id X1 y1).2.2 1 (by with_unfolding_all decide) (by with_unfolding_all decide)⟩

/-! Claim C8: agreement of LDA and QDA under a common per-class covariance. -/

theorem classesOf_ne_nil {n : ℕ} {L : Type} [LinearOrder L] (y : Fin n → L) (hn : 0 < n) :
    classesOf y ≠ [] := by
  intro h
  have : y ⟨0, hn⟩ ∈ classesOf y := mem_classesOf.mpr ⟨⟨0, hn⟩, rfl⟩
  rw [h] at this
  simp at this

theorem sum_classCount {n : ℕ} {L : Type} [LinearOrder L] (y : Fin n → L) :
    ∑ c ∈ Finset.image y Finset.univ, (classCount y c : ℚ) = (n : ℚ) := by
  have h := Finset.card_eq_sum_card_fiberwise
    (fun x (_ : x ∈ (Finset.univ : Finset (Fin n))) => Finset.mem_image_of_mem y (Finset.mem_univ x))
  have h2 : (Finset.univ : Finset (Fin n)).card = n := by simp
  unfold classCount
  exact_mod_cast (h2 ▸ h).symm

theorem classCovariance_transpose {n p : ℕ} {L : Type} [DecidableEq L]
    (X : Matrix (Fin n) (Fin p) ℚ) (y : Fin n → L) (c : L) :
    (classCovariance X y c)ᵀ = classCovariance X y c := by
  unfold classCovariance
  ext a b
  simp only [Matrix.transpose_apply, Matrix.smul_apply, Matrix.sum_apply,
    Matrix.vecMulVec_apply, smul_eq_mul]
  congr 1
  exact Finset.sum_congr rfl (fun i _ => mul_comm _ _)

theorem matInv_transpose {p : ℕ} {A : Matrix (Fin p) (Fin p) ℚ} (h : Aᵀ = A) :
    (matInv A)ᵀ = matInv A := by
  unfold matInv
  split_ifs with hd
  · rw [Matrix.transpose_zero]
  · rw [Matrix.transpose_smul, Matrix.adjugate_transpose, h]

theorem quadform_expand {p : ℕ} {B : Matrix (Fin p) (Fin p) ℚ} (hB : Bᵀ = B)
    (x μ : Fin p → ℚ) :
    (x - μ) ⬝ᵥ B *ᵥ (x - μ) =
      x ⬝ᵥ B *ᵥ x - 2 * (x ⬝ᵥ B *ᵥ μ) + μ ⬝ᵥ B *ᵥ μ := by
  have hsym : μ ⬝ᵥ B *ᵥ x = x ⬝ᵥ B *ᵥ μ := by
    calc μ ⬝ᵥ B *ᵥ x = (μ ᵥ* B) ⬝ᵥ x := Matrix.dotProduct_mulVec μ B x
      _ = (μ ᵥ* Bᵀ) ⬝ᵥ x := by rw [hB]
      _ = (B *ᵥ μ) ⬝ᵥ x := by rw [Matrix.vecMul_transpose]
      _ = x ⬝ᵥ (B *ᵥ μ) := Matrix.dotProduct_comm _ _
  rw [Matrix.mulVec_sub, Matrix.dotProduct_sub, Matrix.sub_dotProduct, Matrix.sub_dotProduct,
    hsym]
  ring

theorem idxmaxFrom_shift {L : Type} {t : ℚ} (x : L × ℚ) (xs : List (L × ℚ)) :
    ∀ (ys : List (L × ℚ)),
      List.Forall₂ (fun a b => a.1 = b.1 ∧ b.2 = a.2 + t) xs ys →
      ∀ (x' : L × ℚ), x'.1 = x.1 → x'.2 = x.2 + t →
      (idxmaxFrom x' ys).1 = (idxmaxFrom x xs).1 ∧
        (idxmaxFrom x' ys).2 = (idxmaxFrom x xs).2 + t := by
  induction xs generalizing x with
  | nil =>
    intro ys h x' h1 h2
    cases h
    exact ⟨h1, h2⟩
  | cons z zs ih =>
    intro ys h x' h1 h2
    rcases h with _ | ⟨⟨hz1, hz2⟩, htail⟩
    rename_i b l₂
    obtain ⟨hy1, hy2⟩ := ih z l₂ htail b hz1.symm hz2
    simp only [idxmaxFrom]
    by_cases hgt : (idxmaxFrom z zs).2 > x.2
    · rw [if_pos hgt, if_pos (by rw [hy2, h2]; exact add_lt_add_right hgt t)]
      exact ⟨hy1, hy2⟩
    · rw [if_neg hgt, if_neg (by rw [hy2, h2]; intro hlt; exact hgt (lt_of_add_lt_add_right hlt))]
      exact ⟨h1, h2⟩

theorem idxmax_shift {L : Type} {t : ℚ} {xs ys : List (L × ℚ)}
    (h : List.Forall₂ (fun a b => a.1 = b.1 ∧ b.2 = a.2 + t) xs ys) :
    (idxmax ys).map Prod.fst = (idxmax xs).map Prod.fst := by
  cases h with
  | nil => rfl
  | cons hz htail =>
    rename_i z b zs l₂
    simp only [idxmax, Option.map_some']
    exact congrArg some (idxmaxFrom_shift z zs l₂ htail b hz.1.symm hz.2).1

theorem seriesOf_forall₂ {L : Type} {cs : List L} {f g : Fin cs.length → ℚ} {t : ℚ}
    (h : ∀ j, g j = f j + t) :
    List.Forall₂ (fun a b => a.1 = b.1 ∧ b.2 = a.2 + t) (seriesOf cs f) (seriesOf cs g) := by
  unfold seriesOf
  rw [List.forall₂_map_left_iff, List.forall₂_map_right_iff]
  rw [List.forall₂_same]
  exact fun j _ => ⟨rfl, h j⟩

theorem pooledSigma_eq_of_common {n p : ℕ} {L : Type} [LinearOrder L]
    (X : Matrix (Fin n) (Fin p) ℚ) (y : Fin n → L) (Sg : Matrix (Fin p) (Fin p) ℚ)
    (hcov : ∀ c ∈ classesOf y, classCovariance X y c = Sg)
    (hcnt2 : ∀ c ∈ classesOf y, 2 ≤ classCount y c)
    (hnk : ((n : ℚ) - ((classesOf y).length : ℚ)) ≠ 0) :
    pooledSigma X y = Sg := by
  unfold pooledSigma
  have htot : ∑ i : Fin n, vecMulVec (residualOf X y i) (residualOf X y i) =
      ∑ c ∈ Finset.image y Finset.univ, ∑ i ∈ Finset.univ.filter (fun i => y i = c),
        vecMulVec (residualOf X y i) (residualOf X y i) :=
    (Finset.sum_fiberwise_of_maps_to
      (fun i (_ : i ∈ (Finset.univ : Finset (Fin n))) =>
        Finset.mem_image_of_mem y (Finset.mem_univ i)) _).symm
  rw [htot]
  have hfib : ∀ c ∈ Finset.image y Finset.univ,
      ∑ i ∈ Finset.univ.filter (fun i => y i = c),
        vecMulVec (residualOf X y i) (residualOf X y i) =
      ((classCount y c : ℚ) - 1) • Sg := by
    intro c hc
    have hc' : c ∈ classesOf y := by
      rw [mem_classesOf]
      rcases Finset.mem_image.mp hc with ⟨i, _, hi⟩
      exact ⟨i, hi⟩
    have h2 := hcnt2 c hc'
    have hne : ((classCount y c : ℚ) - 1) ≠ 0 := by
      have h2' : (2 : ℚ) ≤ (classCount y c : ℚ) := by exact_mod_cast h2
      intro heq
      rw [sub_eq_zero] at heq
      rw [heq] at h2'
      norm_num at h2'
    have hcv := hcov c hc'
    unfold classCovariance at hcv
    calc ∑ i ∈ Finset.univ.filter (fun i => y i = c),
          vecMulVec (residualOf X y i) (residualOf X y i)
        = ((classCount y c : ℚ) - 1) • (((classCount y c : ℚ) - 1)⁻¹ •
            ∑ i ∈ Finset.univ.filter (fun i => y i = c),
              vecMulVec (residualOf X y i) (residualOf X y i)) := by
          rw [smul_smul, mul_inv_cancel₀ hne, one_smul]
      _ = ((classCount y c : ℚ) - 1) • Sg := by rw [hcv]
  rw [Finset.sum_congr rfl hfib, ← Finset.sum_smul]
  have hsum : ∑ c ∈ Finset.image y Finset.univ, ((classCount y c : ℚ) - 1) =
      (n : ℚ) - ((classesOf y).length : ℚ) := by
    rw [Finset.sum_sub_distrib, Finset.sum_const, nsmul_eq_mul, mul_one, sum_classCount]
    rw [classesOf_length]
  rw [hsum, smul_smul, inv_mul_cancel₀ hnk, one_smul]

theorem qda_quad_eq {p m : ℕ} (B : Matrix (Fin p) (Fin p) ℚ) (μ : Fin p → ℚ)
    (samples : Matrix (Fin m) (Fin p) ℚ) (i : Fin m) :
    ∑ j : Fin p, (samples i j - μ j) *
        ((B * (Matrix.of fun r j => samples r j - μ j)ᵀ)ᵀ i j)
      = ((fun j => samples i j) - μ) ⬝ᵥ B *ᵥ ((fun j => samples i j) - μ) := rfl

theorem lda_linear_eq {p m k : ℕ} (B : Matrix (Fin p) (Fin p) ℚ)
    (Mns : Matrix (Fin k) (Fin p) ℚ) (samples : Matrix (Fin m) (Fin p) ℚ)
    (i : Fin m) (c : Fin k) :
    (samples * (B * Mnsᵀ)) i c =
      (fun j => samples i j) ⬝ᵥ B *ᵥ (fun j => Mns c j) := rfl

theorem lda_const_quad_eq {p k : ℕ} (B : Matrix (Fin p) (Fin p) ℚ)
    (Mns : Matrix (Fin k) (Fin p) ℚ) (c : Fin k) :
    ∑ j : Fin p, Mns c j * ((B * Mnsᵀ)ᵀ c j) =
      (fun j => Mns c j) ⬝ᵥ B *ᵥ (fun j => Mns c j) := rfl

/-- C8: if every observed class's empirical covariance equals one common
matrix `Sg`, then a fitted LDA and a fitted QDA on the same training data
produce the same prediction on every classify input row: the pooled
covariance collapses to `Sg`, and the quadratic discriminant differs from
the linear one by the class-invariant amount
`½·lg(det Sg) + ½·xᵀ Sg⁻¹ x`, which cancels in the row-wise argmax. -/
theorem claim_C8 {n p m : ℕ} {L : Type} [LinearOrder L] (lg : ℚ → ℚ)
    (X : Matrix (Fin n) (Fin p) ℚ) (y : Fin n → L) (Sg : Matrix (Fin p) (Fin p) ℚ)
    (hcov : ∀ c ∈ classesOf y, classCovariance X y c = Sg)
    (Ml : LinearDiscriminantClassifier p L) (Mq : QuadraticDiscriminantClassifier p L)
    (hl : LinearDiscriminantClassifier.fit lg X y = some Ml)
    (hq : QuadraticDiscriminantClassifier.fit lg X y = some Mq)
    (samples : Matrix (Fin m) (Fin p) ℚ) (i : Fin m) :
    Ml.classify samples i = Mq.classify samples i := by
  have hlno : ¬((n : ℚ) - ((classesOf y).length : ℚ) = 0 ∨ (pooledSigma X y).det = 0) := by
    intro hc
    have hnone := (@ldaFit_eq_none n p L _ lg X y).mpr hc
    rw [hl] at hnone
    exact Option.some_ne_none Ml hnone
  push_neg at hlno
  obtain ⟨hnk, _⟩ := hlno
  have hqno : ¬∃ c ∈ classesOf y, (classCovariance X y c).det = 0 := by
    intro hc
    have hnone := (@qdaFit_eq_none n p L _ lg X y).mpr hc
    rw [hq] at hnone
    exact Option.some_ne_none Mq hnone
  push_neg at hqno
  have hpool : pooledSigma X y = Sg := by
    rcases Nat.eq_zero_or_pos p with hp | hp
    · subst hp
      ext a b
      exact a.elim0
    · refine pooledSigma_eq_of_common X y Sg hcov ?_ hnk
      intro c hc
      by_contra hlt
      push_neg at hlt
      exact hqno c hc (classCovariance_det_eq_zero X y hc (by omega))
  have hSsym : Sgᵀ = Sg := by
    have hne : classesOf y ≠ [] := by
      intro hnil
      apply hnk
      have hn0 : n = 0 := by
        by_contra hn
        exact (classesOf_ne_nil y (Nat.pos_of_ne_zero hn)) hnil
      subst hn0
      rw [hnil]
      norm_num
    obtain ⟨c0, hc0⟩ := List.exists_mem_of_ne_nil (classesOf y) hne
    rw [← hcov c0 hc0]
    exact classCovariance_transpose X y c0
  have hBsym : (matInv Sg)ᵀ = matInv Sg := matInv_transpose hSsym
  obtain rfl := ldaFit_eq hl
  obtain rfl := qdaFit_eq hq
  simp only [LinearDiscriminantClassifier.classify, QuadraticDiscriminantClassifier.classify]
  refine idxmax_shift (t := (1/2) * lg (Sg.det) + (1/2) *
    ((fun j => samples i j) ⬝ᵥ matInv Sg *ᵥ (fun j => samples i j))) (seriesOf_forall₂ ?_)
  intro c
  rw [hpool, hcov ((classesOf y).get c) (List.get_mem _ c.1 c.2)]
  rw [lda_linear_eq, lda_const_quad_eq, qda_quad_eq]
  rw [quadform_expand hBsym]
  ring

/-- C8 witness: on the concrete dataset `X0, y0` the two class covariances
are both `!![2]`; LDA and QDA fit successfully and agree at both rows of the
concrete sample matrix `S0`. -/
theorem claim_C8_witness :
    (∀ c ∈ classesOf y0, classCovariance X0 y0 c = !![(2 : ℚ)]) ∧
    ((LinearDiscriminantClassifier.fit id X0 y0).elim False (fun Ml =>
      (QuadraticDiscriminantClassifier.fit id X0 y0).elim False (fun Mq =>
        Ml.classify S0 0 = Mq.classify S0 0 ∧ Ml.classify S0 1 = Mq.classify S0 1))) := by
  refine ⟨by with_unfolding_all decide, ?_⟩
  rcases hl : LinearDiscriminantClassifier.fit id X0 y0 with _ | Ml
  · have : (LinearDiscriminantClassifier.fit id X0 y0).isSome := by with_unfolding_all decide
    rw [hl] at this; simp at this
  · rcases hq : QuadraticDiscriminantClassifier.fit id X0 y0 with _ | Mq
    · have : (QuadraticDiscriminantClassifier.fit id X0 y0).isSome := by
        with_unfolding_all decide
      rw [hq] at this; simp at this
    · exact ⟨claim_C8 id X0 y0 (!![(2 : ℚ)]) (by with_unfolding_all decide) Ml Mq hl hq S0 0,
        claim_C8 id X0 y0 (!![(2 : ℚ)]) (by with_unfolding_all decide) Ml Mq hl hq S0 1⟩
